import Mathlib

/-!
Verification of the Fermat-factoring / RSA script `src/AW/repos.py`.

The script works over gmpy2 arbitrary-precision numbers.  We embed it over
`Nat` (all quantities handled by the factoring engine are nonnegative) and
`Int` where the source subtracts.  The gmpy2 floating square root, applied
to an integer argument at the (ample) working precision the script
configures, is modelled as the exact real square root; converting a real
value back to an integer with `mpz(...)` truncates toward zero, which for
the nonnegative values arising here is the floor.  Consequently:
  * `sqrt m` followed by `mpz` is the integer square root `isqrt m`,
  * `mpz (a - sqrt d)` is `a - isqrt d` when `d` is a perfect square and
    `a - isqrt d - 1` otherwise,
  * `ceil (sqrt n)` is `isqrt n` when `n` is a perfect square and
    `isqrt n + 1` otherwise.
`gmpy2.is_prime` (a primality oracle) is modelled by trial division;
`gmpy2.div` on mpz values (Python 2 semantics) is floor division, which on
the nonnegative operands of the script is `Nat` division; comparison of the
integer `sub(n, mul(p, q))` against the float literal `0.5` is rendered
exactly as `2 * (n - p*q) < 1` over `Int`; raising (`assert` failures,
`raise ValueError`) is modelled by an `Option` result with `none` for the
raising paths.
-/

/-- Fuel-driven integer square root: `isqrtGo n fuel acc` increments `acc`
while `(acc+1)^2 ≤ n`, starting the search at `acc`. -/
def isqrtGo (n : Nat) : Nat → Nat → Nat
  | 0, acc => acc
  | fuel + 1, acc => if (acc + 1) * (acc + 1) ≤ n then isqrtGo n fuel (acc + 1) else acc

/-- Integer square root `⌊√n⌋`, the model of `gmpy2.isqrt` (and of the
floating `gmpy2.sqrt` of an integer once truncated back to an integer). -/
def isqrt (n : Nat) : Nat := isqrtGo n n 0

/-- Model of `ceil(sqrt(n))` from `calc_near` / `calc_brute_force`:
the ceiling of the exact real square root of `n`. -/
def ceilSqrt (n : Nat) : Nat :=
  if isqrt n * isqrt n = n then isqrt n else isqrt n + 1

/-- Model of the `gmpy2.is_prime` oracle: trial-division primality test. -/
def isPrime (p : Nat) : Bool :=
  decide (2 ≤ p) && (List.range p).all fun d => decide (d ≤ 1) || decide (p % d ≠ 0)

/-- `Factoring._check_sol` (repos.py line 36): both factors must pass the
primality test, and `sub(self.n, mul(p, q)) < 0.5`; the comparison of the
integer `n - p*q` with the float `0.5` is rendered exactly over `Int` as
`2 * (n - p*q) < 1`. -/
def checkSol (n p q : Nat) : Bool :=
  isPrime p && isPrime q && decide (2 * ((n : Int) - (p : Int) * (q : Int)) < 1)

/-- `Factoring._calc_factors` (repos.py line 96): `x = sqrt(a*a - n)`,
`p = mpz(a - x)`, `q = mpz(a + x)`.  With the exact-real reading of the
floating square root, the truncations yield `(a - s, a + s)` when
`a*a - n` is the perfect square `s*s` and `(a - s - 1, a + s)` otherwise,
`s = isqrt (a*a - n)`. -/
def calcFactors (n a : Nat) : Nat × Nat :=
  let d := a * a - n
  let s := isqrt d
  if s * s = d then (a - s, a + s) else (a - s - 1, a + s)

/-- `Factoring.calc_near` (repos.py line 41): one candidate `a = ceil(sqrt n)`,
then `assert self._check_sol(p, q)` and `assert gmpy2.is_prime(p)`; a failing
assertion raises, modelled by `none`. -/
def calc_near (n : Nat) : Option (Nat × Nat) :=
  let a := ceilSqrt n
  let pq := calcFactors n a
  if checkSol n pq.1 pq.2 then (if isPrime pq.1 then some pq else none) else none

/-- The candidate at offset `k` of the brute-force search passes the check. -/
def passesAt (n a k : Nat) : Bool :=
  checkSol n (calcFactors n (a + k)).1 (calcFactors n (a + k)).2

/-- The body of `calc_brute_force`'s `for n in xrange(1, 2 ** 20)` loop
(repos.py line 50): at offset `k` compute `_calc_factors(a + k)`, return the
pair if `_check_sol` passes, otherwise continue; `fuel` counts the remaining
iterations, and running out of fuel is the `raise ValueError` of the `else`
clause, modelled by `none`. -/
def bruteLoop (n a : Nat) : Nat → Nat → Option (Nat × Nat)
  | 0, _ => none
  | fuel + 1, k =>
    if passesAt n a k then some (calcFactors n (a + k)) else bruteLoop n a fuel (k + 1)

/-- `Factoring.calc_brute_force` (repos.py line 48): `a = ceil(sqrt n)`, then
offsets `k = 1, ..., 2^20 - 1` (the iterates of `xrange(1, 2 ** 20)`). -/
def calc_brute_force (n : Nat) : Option (Nat × Nat) :=
  bruteLoop n (ceilSqrt n) (2 ^ 20 - 1) 1

/-- `Factoring.solve_quadratic` (repos.py line 58): roots
`(-b ∓ sqrt(b² - 4ac)) / (2a)`.  The floating square root of the integer
discriminant is modelled exactly (the round-trip claims only exercise
perfect-square discriminants, where the model and gmpy2 agree), and the
divisions — exact in those uses — are integer divisions. -/
def solve_quadratic (a b c : Int) : Int × Int :=
  ((-b - (isqrt (b * b - 4 * a * c).toNat : Int)) / (2 * a),
   (-b + (isqrt (b * b - 4 * a * c).toNat : Int)) / (2 * a))

/-- The candidate block of `calc_near6` (repos.py lines 84-94): candidate
`((A-E)/6, (A+E)/4)`, then candidate `((A+E)/6, (A-E)/4)` (mpz divisions are
floor divisions), each gated by `_check_sol`; on fall-through the source
prints `Could not find a solution` and returns the pair `(0, 0)`. -/
def near6Candidates (n A E : Nat) : Option (Nat × Nat) :=
  if checkSol n ((A - E) / 6) ((A + E) / 4) then some ((A - E) / 6, (A + E) / 4)
  else if checkSol n ((A + E) / 6) ((A - E) / 4) then some ((A + E) / 6, (A - E) / 4)
  else some (0, 0)

/-- `Factoring.calc_near6` (repos.py line 68): `A = isqrt(24 n) + 1`,
`D = A² - 24 n`, `E = isqrt D` with `assert E² - D == 0` (a failing assert
raises, modelled by `none`); then the two algebraic candidates. -/
def calc_near6 (n : Nat) : Option (Nat × Nat) :=
  let A := isqrt (24 * n) + 1
  let D := A * A - 24 * n
  let E := isqrt D
  if E * E = D then near6Candidates n A E else none

/-- Model of `gmpy2.invert e m`: the least `d < m` with `e * d ≡ 1 (mod m)`,
and `0` when no inverse exists (gmpy2 returns `0` for `m = 1`; for `m ≥ 2`
the claims only use it under `gcd e m = 1`, where the inverse exists). -/
def invert (e m : Nat) : Nat :=
  (((List.range m).find? fun d => decide (e * d % m = 1)).getD 0)

/-- The integer part of `decrypt` (repos.py lines 150-153): from the factors
`p, q` of the modulus, `φ = (p-1)(q-1)`, `d = invert e φ`, and the decrypted
integer `powmod(c, d, n) = c^d % (p*q)`. -/
def rsa_decrypt_int (p q e c : Nat) : Nat :=
  c ^ invert e ((p - 1) * (q - 1)) % (p * q)

/-- Hex digits of `n` (most significant first), lowercase, via explicit fuel;
`hexDigitsAux (n+1) n` matches Python's `hex(n)` payload for every `n`. -/
def hexDigitsAux : Nat → Nat → List Char
  | 0, _ => []
  | fuel + 1, n =>
    if n < 16 then [Nat.digitChar n]
    else hexDigitsAux fuel (n / 16) ++ [Nat.digitChar (n % 16)]

/-- Python's `hex(dec)` rendering used by `decrypt` (repos.py line 155):
the literal prefix `0x` followed by the hex digits. -/
def pyHex (n : Nat) : List Char := '0' :: 'x' :: hexDigitsAux (n + 1) n

/-- Index of the first occurrence of the substring `00`, the model of
`str.index('00')` except that the Python call raises `ValueError` where this
returns `none`. -/
def index00 : List Char → Option Nat
  | [] => none
  | [_] => none
  | a :: b :: rest =>
    if a = '0' ∧ b = '0' then some 0 else (index00 (b :: rest)).map (· + 1)

/-- Outcome of the padding-marker handling in `decrypt` (repos.py 155-160):
the payload hex text after the marker, the printed `Decryption failed`
fall-through, or an unhandled `ValueError` escaping from `str.index`. -/
inductive DecOutcome
  | ok (payload : List Char)
  | failed
  | valueError
deriving DecidableEq

/-- The padding-marker logic of `decrypt`: if the hex rendering starts with
`0x2`, find `00` (raising `ValueError` — `DecOutcome.valueError` — when it is
absent) and keep everything after it; otherwise print `Decryption failed`. -/
def extract_message (dec : Nat) : DecOutcome :=
  let s := pyHex dec
  if s.take 3 = ['0', 'x', '2'] then
    match index00 s with
    | some i => DecOutcome.ok (s.drop (i + 2))
    | none => DecOutcome.valueError
  else DecOutcome.failed

/-- The search loop of `isqrtGo` stays below the square root and, given
enough fuel, ends just below it. -/
theorem isqrtGo_spec (n : Nat) :
    ∀ fuel acc, acc * acc ≤ n → n < (acc + fuel + 1) * (acc + fuel + 1) →
      isqrtGo n fuel acc * isqrtGo n fuel acc ≤ n ∧
        n < (isqrtGo n fuel acc + 1) * (isqrtGo n fuel acc + 1) := by
  intro fuel
  induction fuel with
  | zero =>
    intro acc h1 h2
    simpa [isqrtGo] using ⟨h1, by simpa using h2⟩
  | succ fuel ih =>
    intro acc h1 h2
    by_cases hstep : (acc + 1) * (acc + 1) ≤ n
    · have := ih (acc + 1) hstep (by
        have : acc + 1 + fuel + 1 = acc + (fuel + 1) + 1 := by omega
        rw [this]; exact h2)
      simpa [isqrtGo, hstep] using this
    · have hlt : n < (acc + 1) * (acc + 1) := Nat.lt_of_not_le hstep
      simpa [isqrtGo, hstep] using ⟨h1, hlt⟩

/-- Characterisation of `isqrt`. -/
theorem isqrt_spec (n : Nat) :
    isqrt n * isqrt n ≤ n ∧ n < (isqrt n + 1) * (isqrt n + 1) := by
  have h2 : n < (0 + n + 1) * (0 + n + 1) := by nlinarith
  exact isqrtGo_spec n n 0 (by simp) h2

/-- Squeezing between consecutive squares determines `isqrt`. -/
theorem isqrt_unique {n m : Nat} (h1 : m * m ≤ n) (h2 : n < (m + 1) * (m + 1)) :
    isqrt n = m := by
  have hs := isqrt_spec n
  by_contra hne
  rcases Nat.lt_or_ge (isqrt n) m with h | h
  · have : isqrt n + 1 ≤ m := h
    have := Nat.mul_le_mul this this
    omega
  · have hlt : m < isqrt n := by omega
    have : m + 1 ≤ isqrt n := hlt
    have := Nat.mul_le_mul this this
    omega

/-- `isqrt` of a perfect square. -/
theorem isqrt_sq (m : Nat) : isqrt (m * m) = m :=
  isqrt_unique (Nat.le_refl _) (by nlinarith)

/-- Unfolding of the solution check: primality of both factors plus the
one-sided product inequality `n ≤ p * q` (the exact rendering of the
source's `sub(n, mul(p, q)) < 0.5` on integers). -/
theorem checkSol_eq (n p q : Nat) :
    checkSol n p q = true ↔ (isPrime p = true ∧ isPrime q = true ∧ n ≤ p * q) := by
  unfold checkSol
  simp only [Bool.and_eq_true, decide_eq_true_eq, and_assoc, and_congr_right_iff]
  intro _ _
  constructor
  · intro h
    have : (n : Int) ≤ (p : Int) * (q : Int) := by omega
    exact_mod_cast this
  · intro h
    have : (n : Int) ≤ (p : Int) * (q : Int) := by exact_mod_cast h
    omega

/-- Strict monotonicity transfer: a square bounded by another square bounds
the roots. -/
theorem le_of_mul_self_le {m a : Nat} (h : m * m ≤ a * a) : m ≤ a := by
  by_contra hc
  have hm : a + 1 ≤ m := by omega
  have := Nat.mul_le_mul hm hm
  nlinarith

/-- Difference-of-squares over `Nat` (both sides vanish when `E > A`). -/
theorem nat_sub_mul_add (A E : Nat) : (A - E) * (A + E) = A * A - E * E := by
  rcases Nat.le_total E A with h | h
  · zify [h, Nat.mul_le_mul h h]
    ring
  · have h1 : A - E = 0 := by omega
    have h2 : A * A - E * E = 0 := by
      have := Nat.mul_le_mul h h
      omega
    rw [h1, h2, Nat.zero_mul]

/-- The floor-divided candidate of `calc_near6` never overshoots the
modulus: if `E * E = A * A - 24 * n` with `24 * n ≤ A * A`, then
`(A - E) / 6 * ((A + E) / 4) ≤ n` (and symmetrically with the roles of the
two division results swapped). -/
theorem near6_candidate_le (n A E u v : Nat) (hA : 24 * n ≤ A * A)
    (hE : E * E = A * A - 24 * n)
    (huv : u * v = (A - E) * (A + E) ∨ u * v = (A + E) * (A - E)) :
    u / 6 * (v / 4) ≤ n := by
  have hsum : (A - E) * (A + E) = 24 * n := by
    rw [nat_sub_mul_add]
    omega
  have huv' : u * v = 24 * n := by
    rcases huv with h | h
    · rw [h, hsum]
    · rw [h, Nat.mul_comm, hsum]
  have h6 : u / 6 * 6 ≤ u := Nat.div_mul_le_self u 6
  have h4 : v / 4 * 4 ≤ v := Nat.div_mul_le_self v 4
  have hmul : (u / 6 * 6) * (v / 4 * 4) ≤ u * v := Nat.mul_le_mul h6 h4
  have h24 : u / 6 * (v / 4) * 24 ≤ 24 * n := by
    calc u / 6 * (v / 4) * 24 = (u / 6 * 6) * (v / 4 * 4) := by ring
    _ ≤ u * v := hmul
    _ = 24 * n := huv'
  have := Nat.le_of_mul_le_mul_right (by omega : u / 6 * (v / 4) * 24 ≤ n * 24) (by omega : 0 < 24)
  exact this

/-- Exhaustion characterisation of the brute-force loop. -/
theorem bruteLoop_eq_none (n a : Nat) :
    ∀ fuel k, bruteLoop n a fuel k = none ↔
      ∀ j, k ≤ j → j < k + fuel → passesAt n a j = false := by
  intro fuel
  induction fuel with
  | zero =>
    intro k
    simp only [bruteLoop]
    constructor
    · intro _ j h1 h2
      omega
    · intro _
      trivial
  | succ fuel ih =>
    intro k
    simp only [bruteLoop]
    by_cases hk : passesAt n a k = true
    · simp only [hk, if_true]
      constructor
      · intro h
        cases h
      · intro h
        have := h k (Nat.le_refl k) (by omega)
        rw [hk] at this
        cases this
    · have hk' : passesAt n a k = false := by
        cases h : passesAt n a k
        · rfl
        · exact absurd h hk
      simp only [hk', if_false, Bool.false_eq_true, ih (k + 1)]
      constructor
      · intro h j h1 h2
        rcases Nat.eq_or_lt_of_le h1 with rfl | h1'
        · exact hk'
        · exact h j h1' (by omega)
      · intro h j h1 h2
        exact h j (by omega) (by omega)

/-- Success characterisation of the brute-force loop: the returned pair comes
from the least passing offset in the scanned window. -/
theorem bruteLoop_eq_some (n a : Nat) :
    ∀ fuel k pq, bruteLoop n a fuel k = some pq ↔
      ∃ j, k ≤ j ∧ j < k + fuel ∧ passesAt n a j = true ∧
        (∀ i, k ≤ i → i < j → passesAt n a i = false) ∧ pq = calcFactors n (a + j) := by
  intro fuel
  induction fuel with
  | zero =>
    intro k pq
    simp only [bruteLoop]
    constructor
    · intro h
      cases h
    · rintro ⟨j, h1, h2, -⟩
      omega
  | succ fuel ih =>
    intro k pq
    simp only [bruteLoop]
    by_cases hk : passesAt n a k = true
    · simp only [hk, if_true]
      constructor
      · intro h
        injection h with h
        exact ⟨k, Nat.le_refl k, by omega, hk, fun i hi1 hi2 => by omega, h.symm⟩
      · rintro ⟨j, h1, h2, h3, h4, h5⟩
        rcases Nat.eq_or_lt_of_le h1 with rfl | h1'
        · rw [h5]
        · have := h4 k (Nat.le_refl k) h1'
          rw [hk] at this
          cases this
    · have hk' : passesAt n a k = false := by
        cases h : passesAt n a k
        · rfl
        · exact absurd h hk
      simp only [hk', if_false, Bool.false_eq_true, ih (k + 1)]
      constructor
      · rintro ⟨j, h1, h2, h3, h4, h5⟩
        refine ⟨j, by omega, by omega, h3, ?_, h5⟩
        intro i hi1 hi2
        rcases Nat.eq_or_lt_of_le hi1 with rfl | hi1'
        · exact hk'
        · exact h4 i hi1' hi2
      · rintro ⟨j, h1, h2, h3, h4, h5⟩
        have hjk : k < j := by
          rcases Nat.eq_or_lt_of_le h1 with rfl | h1'
          · rw [h3] at hk'
            cases hk'
          · exact h1'
        exact ⟨j, by omega, by omega, h3, fun i hi1 hi2 => h4 i (by omega) hi2, h5⟩

/-- A passing solution check forces primality of the first factor (used for
the second `assert` of `calc_near`). -/
theorem checkSol_fst_prime {n p q : Nat} (h : checkSol n p q = true) :
    isPrime p = true :=
  ((checkSol_eq n p q).mp h).1

/-- Product bound for the truncating split: whenever `1 ≤ n ≤ a * a` and
`a * a - n` is not a perfect square, the truncated pair
`(a - s - 1) * (a + s)` stays strictly below `n`. -/
theorem truncated_split_lt {n a s : Nat} (h1 : 1 ≤ n) (h2 : n ≤ a * a)
    (hs1 : s * s ≤ a * a - n) (hs2 : a * a - n < (s + 1) * (s + 1)) :
    (a - s - 1) * (a + s) < n := by
  have hsa : s < a := by
    by_contra hc
    have : a ≤ s := by omega
    have := Nat.mul_le_mul this this
    omega
  have key : a * a < n + (s + 1) * (s + 1) := by omega
  obtain ⟨t, rfl⟩ : ∃ t, a = t + s + 1 := ⟨a - s - 1, by omega⟩
  have hred : t + s + 1 - s - 1 = t := by omega
  rw [hred]
  nlinarith [key]

/-- `gmpy2.invert` really inverts: for `m ≥ 2` and `gcd e m = 1`,
`e * invert e m ≡ 1 (mod m)`. -/
theorem invert_spec (e m : Nat) (hm : 2 ≤ m) (h : Nat.gcd e m = 1) :
    e * invert e m % m = 1 := by
  have hm0 : 0 < m := by omega
  have ht : 0 < m.totient := Nat.totient_pos.mpr hm0
  have heu : e ^ m.totient ≡ 1 [MOD m] := Nat.ModEq.pow_totient h
  have hd₀ : e * (e ^ (m.totient - 1) % m) % m = 1 := by
    have hmod : e ^ (m.totient - 1) % m ≡ e ^ (m.totient - 1) [MOD m] :=
      Nat.mod_modEq _ _
    have hmul : e * (e ^ (m.totient - 1) % m) ≡ e * e ^ (m.totient - 1) [MOD m] :=
      hmod.mul_left e
    have hpow : e * e ^ (m.totient - 1) = e ^ m.totient := by
      have h1 : m.totient - 1 + 1 = m.totient := by omega
      rw [mul_comm, ← pow_succ, h1]
    have : e * (e ^ (m.totient - 1) % m) ≡ 1 [MOD m] := by
      rw [hpow] at hmul
      exact hmul.trans heu
    have h1m : 1 % m = 1 := Nat.mod_eq_of_lt (by omega)
    unfold Nat.ModEq at this
    rw [h1m] at this
    exact this
  have hmem : e ^ (m.totient - 1) % m ∈ List.range m :=
    List.mem_range.mpr (Nat.mod_lt _ hm0)
  unfold invert
  cases hfind : (List.range m).find? fun d => decide (e * d % m = 1) with
  | none =>
    exfalso
    have := List.find?_eq_none.mp hfind _ hmem
    exact this (by simpa using hd₀)
  | some d₁ =>
    have hp1 := List.find?_some hfind
    simp only [decide_eq_true_eq] at hp1
    simpa using hp1

/-- Fermat/Euler step: for a prime `r` and `(r - 1) ∣ k`, every `M` satisfies
`M ^ (k + 1) ≡ M (mod r)`. -/
theorem pow_one_add_mult {r : Nat} (M k : Nat) (hr : Nat.Prime r)
    (hdvd : (r - 1) ∣ k) : M ^ (k + 1) ≡ M [MOD r] := by
  obtain ⟨s, rfl⟩ := hdvd
  by_cases hM : r ∣ M
  · have h0 : M ≡ 0 [MOD r] := (Nat.modEq_zero_iff_dvd).mpr hM
    have := h0.pow ((r - 1) * s + 1)
    rw [zero_pow (by omega : (r - 1) * s + 1 ≠ 0)] at this
    exact this.trans h0.symm
  · have hco : Nat.Coprime M r := (Nat.coprime_comm).mp ((Nat.Prime.coprime_iff_not_dvd hr).mpr hM)
    have heu : M ^ r.totient ≡ 1 [MOD r] := Nat.ModEq.pow_totient hco
    rw [Nat.totient_prime hr] at heu
    have h1 : (M ^ (r - 1)) ^ s ≡ 1 ^ s [MOD r] := heu.pow s
    rw [one_pow] at h1
    have h2 : (M ^ (r - 1)) ^ s * M ≡ 1 * M [MOD r] := h1.mul_right M
    rw [one_mul] at h2
    calc M ^ ((r - 1) * s + 1) = (M ^ (r - 1)) ^ s * M := by
          rw [pow_succ, pow_mul]
    _ ≡ M [MOD r] := h2

/-- Claim C1 counterexample: the verification check is one-sided, so the
prime pair `(7, 13)` with product `91 ≠ 77` is nevertheless accepted on the
modulus `77`; the claimed equivalence with exact product equality fails at
this concrete input. -/
theorem check_sol_claim_cex :
    ¬ (checkSol 77 7 13 = true ↔
        (isPrime 7 = true ∧ isPrime 13 = true ∧ 7 * 13 = 77)) := by
  decide

/-- Claim C1 (amended): `_check_sol(p, q)` returns true iff both factors pass
the primality test and `n - p*q < 0.5` holds, which on exact integers is the
one-sided inequality `n ≤ p * q`; prime pairs whose product is below `n` are
rejected, but prime pairs whose product exceeds `n` are accepted. -/
theorem check_sol_amended (n p q : Nat) :
    checkSol n p q = true ↔ (isPrime p = true ∧ isPrime q = true ∧ n ≤ p * q) :=
  checkSol_eq n p q

/-- Claim C9: on `N = 77`, `calc_near` takes the single candidate midpoint
`ceil(sqrt 77) = 9`, the split of `9` has `x = isqrt (81 - 77) = 2` and gives
the pair `(7, 11)`, that pair passes verification, and `calc_near` returns
exactly `(7, 11)`. -/
theorem calc_near_77_scenario :
    ceilSqrt 77 = 9 ∧ isqrt (9 * 9 - 77) = 2 ∧ calcFactors 77 9 = (7, 11) ∧
      checkSol 77 7 11 = true ∧ calc_near 77 = some (7, 11) := by
  decide

/-- Claim C10 counterexample: at modulus `77` and midpoint `a = 10`
(`a * a = 100 ≥ 77`), the square root of `a² - N = 23` is inexact, the
truncation of `a - √23` yields `5`, not `a - ⌊√23⌋ = 6`, and the returned
pair `(5, 14)` violates both `p = a - x` and `p + q = 2a`. -/
theorem calc_factors_claim_cex :
    77 ≤ 10 * 10 ∧ calcFactors 77 10 = (5, 14) ∧
      (calcFactors 77 10).1 ≠ 10 - isqrt (10 * 10 - 77) ∧
      (calcFactors 77 10).1 + (calcFactors 77 10).2 ≠ 2 * 10 := by
  decide

/-- Claim C10 (amended): for `1 ≤ n ≤ a * a` the split at midpoint `a`
returns `q = a + x` with `x = ⌊√(a² - n)⌋` and `p = a - x` exactly when
`a² - n` is a perfect square (`p = a - x - 1` otherwise); consequently
`p ≤ q` and `p * q ≤ n` always hold, and `p + q = 2a` holds iff `a² - n` is
a perfect square. -/
theorem calc_factors_spec (n a : Nat) (h1 : 1 ≤ n) (h2 : n ≤ a * a) :
    (calcFactors n a).2 = a + isqrt (a * a - n) ∧
      (calcFactors n a).1 ≤ (calcFactors n a).2 ∧
      (calcFactors n a).1 * (calcFactors n a).2 ≤ n ∧
      ((calcFactors n a).1 + (calcFactors n a).2 = 2 * a ↔
        isqrt (a * a - n) * isqrt (a * a - n) = a * a - n) ∧
      (isqrt (a * a - n) * isqrt (a * a - n) ≠ a * a - n →
        (calcFactors n a).1 = a - isqrt (a * a - n) - 1) := by
  have hs := isqrt_spec (a * a - n)
  have hsa : isqrt (a * a - n) < a := by
    by_contra hc
    have hle : a ≤ isqrt (a * a - n) := by omega
    have := Nat.mul_le_mul hle hle
    omega
  have hkey : calcFactors n a =
      if isqrt (a * a - n) * isqrt (a * a - n) = a * a - n then
        (a - isqrt (a * a - n), a + isqrt (a * a - n))
      else (a - isqrt (a * a - n) - 1, a + isqrt (a * a - n)) := rfl
  by_cases hex : isqrt (a * a - n) * isqrt (a * a - n) = a * a - n
  · rw [hkey, if_pos hex]
    refine ⟨rfl, ?_, ?_, ?_, fun h => absurd hex h⟩
    · show a - isqrt (a * a - n) ≤ a + isqrt (a * a - n)
      omega
    · show (a - isqrt (a * a - n)) * (a + isqrt (a * a - n)) ≤ n
      rw [nat_sub_mul_add, hex]
      omega
    · show a - isqrt (a * a - n) + (a + isqrt (a * a - n)) = 2 * a ↔ _
      constructor
      · intro _
        exact hex
      · intro _
        omega
  · rw [hkey, if_neg hex]
    refine ⟨rfl, ?_, ?_, ?_, fun _ => rfl⟩
    · show a - isqrt (a * a - n) - 1 ≤ a + isqrt (a * a - n)
      omega
    · show (a - isqrt (a * a - n) - 1) * (a + isqrt (a * a - n)) ≤ n
      exact Nat.le_of_lt (truncated_split_lt h1 h2 hs.1 hs.2)
    · show a - isqrt (a * a - n) - 1 + (a + isqrt (a * a - n)) = 2 * a ↔ _
      constructor
      · intro hsum
        omega
      · intro hc
        exact absurd hc hex

/-- Claim C10 witness: the amended split specification applied at the
concrete instance `n = 77`, `a = 10`. -/
theorem calc_factors_spec_witness :
    (calcFactors 77 10).2 = 10 + isqrt (10 * 10 - 77) ∧
      (calcFactors 77 10).1 * (calcFactors 77 10).2 ≤ 77 :=
  ⟨(calc_factors_spec 77 10 (by decide) (by decide)).1,
   (calc_factors_spec 77 10 (by decide) (by decide)).2.2.1⟩

/-- Claim C4: at `N = 36` (where `A = 30`, `D = E² = 36` and both algebraic
candidates `(4, 9)` and `(6, 6)` fail verification), `calc_near6` does not
report a defined error: it falls through to the placeholder pair `(0, 0)`,
exactly the behaviour the claim rules out. -/
theorem calc_near6_placeholder_eval :
    calc_near6 36 = some (0, 0) ∧
      checkSol 36 ((30 - 6) / 6) ((30 + 6) / 4) = false ∧
      checkSol 36 ((30 + 6) / 6) ((30 - 6) / 4) = false := by
  decide

/-- Claim C7: the decrypted integer `33` renders as `0x21`: it has the
leading `2` nibble but lacks the `00` marker, and the marker search of
`decrypt` (`str.index`) raises an unhandled `ValueError` there instead of
reporting a decryption failure. -/
theorem decrypt_marker_crash_eval :
    index00 (pyHex 33) = none ∧ extract_message 33 = DecOutcome.valueError ∧
      DecOutcome.valueError ≠ DecOutcome.failed := by
  decide

/-- Claim C3: `calc_near` computes the single candidate split at
`ceil(sqrt n)` and returns it exactly when it passes verification; when the
single candidate does not verify, the assertion raises (`none`) — no retry.
The source's second assertion (`is_prime p`) is subsumed by the first. -/
theorem calc_near_spec (n : Nat) :
    (∀ p q, calc_near n = some (p, q) ↔
      ((p, q) = calcFactors n (ceilSqrt n) ∧ checkSol n p q = true)) ∧
    (calc_near n = none ↔
      checkSol n (calcFactors n (ceilSqrt n)).1 (calcFactors n (ceilSqrt n)).2 = false) := by
  have hkey : calc_near n =
      if checkSol n (calcFactors n (ceilSqrt n)).1 (calcFactors n (ceilSqrt n)).2 then
        (if isPrime (calcFactors n (ceilSqrt n)).1 then some (calcFactors n (ceilSqrt n))
         else none)
      else none := rfl
  by_cases hc : checkSol n (calcFactors n (ceilSqrt n)).1 (calcFactors n (ceilSqrt n)).2 = true
  · have hp : isPrime (calcFactors n (ceilSqrt n)).1 = true := checkSol_fst_prime hc
    rw [hkey, if_pos hc, if_pos hp]
    constructor
    · intro p q
      constructor
      · intro h
        injection h with h
        have e1 : (calcFactors n (ceilSqrt n)).1 = p := by rw [h]
        have e2 : (calcFactors n (ceilSqrt n)).2 = q := by rw [h]
        refine ⟨h.symm, ?_⟩
        rw [← e1, ← e2]
        exact hc
      · rintro ⟨h1, -⟩
        rw [h1]
    · constructor
      · intro h
        cases h
      · intro h
        rw [hc] at h
        cases h
  · have hc' : checkSol n (calcFactors n (ceilSqrt n)).1 (calcFactors n (ceilSqrt n)).2 = false := by
      cases h : checkSol n (calcFactors n (ceilSqrt n)).1 (calcFactors n (ceilSqrt n)).2
      · rfl
      · exact absurd h hc
    rw [hkey, if_neg (by rw [hc']; exact Bool.false_ne_true)]
    constructor
    · intro p q
      constructor
      · intro h
        cases h
      · rintro ⟨h1, h2⟩
        exfalso
        have e1 : p = (calcFactors n (ceilSqrt n)).1 := by rw [← h1]
        have e2 : q = (calcFactors n (ceilSqrt n)).2 := by rw [← h1]
        rw [e1, e2] at h2
        rw [h2] at hc'
        cases hc'
    · exact ⟨fun _ => hc', fun _ => rfl⟩

/-- Claim C3 witness: the characterisation applied at `N = 35`, whose single
candidate midpoint `6` splits into the verified pair `(5, 7)`. -/
theorem calc_near_spec_witness : calc_near 35 = some (5, 7) :=
  ((calc_near_spec 35).1 5 7).mpr ⟨by decide, by decide⟩

/-- Claim C2: the brute-force search scans the offsets `k = 1, ..., 2^20 - 1`
of `xrange(1, 2 ** 20)` from `a₀ = ceil(sqrt n)`: it returns `none` (the
`raise ValueError` branch) iff no offset within the bound passes
verification, and returns a pair iff that pair is the split at the least
passing offset. -/
theorem calc_brute_force_spec (n : Nat) :
    (calc_brute_force n = none ↔
      ∀ k, 1 ≤ k → k < 2 ^ 20 → passesAt n (ceilSqrt n) k = false) ∧
    (∀ p q, calc_brute_force n = some (p, q) ↔
      ∃ k, 1 ≤ k ∧ k < 2 ^ 20 ∧ passesAt n (ceilSqrt n) k = true ∧
        (∀ j, 1 ≤ j → j < k → passesAt n (ceilSqrt n) j = false) ∧
        (p, q) = calcFactors n (ceilSqrt n + k)) := by
  have hb : 1 + (2 ^ 20 - 1) = 2 ^ 20 := by norm_num
  constructor
  · have := bruteLoop_eq_none n (ceilSqrt n) (2 ^ 20 - 1) 1
    rw [hb] at this
    exact this
  · intro p q
    have := bruteLoop_eq_some n (ceilSqrt n) (2 ^ 20 - 1) 1 (p, q)
    rw [hb] at this
    exact this

/-- Soundness of the candidate block under the exact-square invariant: a
returned pair other than the placeholder `(0, 0)` is a pair of primes whose
product is exactly the modulus (in particular, a candidate touched by a
non-exact floor division can never be returned, because its product falls
short of `n` and the check rejects it). -/
theorem near6Candidates_sound (n A E : Nat) (hA : 24 * n ≤ A * A)
    (hE : E * E = A * A - 24 * n) :
    ∀ p q, near6Candidates n A E = some (p, q) → (p, q) ≠ (0, 0) →
      isPrime p = true ∧ isPrime q = true ∧ p * q = n := by
  intro p q hsome hne
  unfold near6Candidates at hsome
  by_cases h1 : checkSol n ((A - E) / 6) ((A + E) / 4) = true
  · rw [if_pos h1] at hsome
    injection hsome with hsome
    injection hsome with e1 e2
    obtain ⟨hp, hq, hle⟩ := (checkSol_eq n _ _).mp h1
    have hub : (A - E) / 6 * ((A + E) / 4) ≤ n :=
      near6_candidate_le n A E (A - E) (A + E) hA hE (Or.inl rfl)
    rw [← e1, ← e2]
    exact ⟨hp, hq, Nat.le_antisymm hub hle⟩
  · rw [if_neg h1] at hsome
    by_cases h2 : checkSol n ((A + E) / 6) ((A - E) / 4) = true
    · rw [if_pos h2] at hsome
      injection hsome with hsome
      injection hsome with e1 e2
      obtain ⟨hp, hq, hle⟩ := (checkSol_eq n _ _).mp h2
      have hub : (A + E) / 6 * ((A - E) / 4) ≤ n :=
        near6_candidate_le n A E (A + E) (A - E) hA hE (Or.inr rfl)
      rw [← e1, ← e2]
      exact ⟨hp, hq, Nat.le_antisymm hub hle⟩
    · rw [if_neg h2] at hsome
      injection hsome with hsome
      exact absurd hsome.symm hne

/-- Claim C2 witness: on `N = 33` the brute-force characterisation produces
the verified pair `(3, 11)` found at the first offset (`a₀ = 6`, `k = 1`). -/
theorem calc_brute_force_spec_witness : calc_brute_force 33 = some (3, 11) :=
  ((calc_brute_force_spec 33).2 3 11).mpr
    ⟨1, by decide, by decide, by decide,
     fun j h1 h2 => absurd h2 (by omega), by decide⟩

/-- Claim C5 counterexample: at `N = 35` the exactness conditions fail —
`A - E = 28` is not divisible by `6` — yet `calc_near6` reports no error: it
returns the second candidate `(5, 7)`. -/
theorem calc_near6_exact_cex :
    ¬ (6 ∣ (isqrt (24 * 35) + 1 -
        isqrt ((isqrt (24 * 35) + 1) * (isqrt (24 * 35) + 1) - 24 * 35))) ∧
      calc_near6 35 = some (5, 7) ∧ calc_near6 35 ≠ none := by
  decide

/-- Claim C5 (amended): the square-root exactness condition is enforced — if
`E² ≠ D` then `calc_near6` raises (`none`) — and a non-exact division can
never produce the value returned: every returned pair other than the
placeholder `(0, 0)` consists of two numbers passing the primality test
whose product is exactly `n`.  However, a failed exactness condition inside
one candidate does not by itself produce an error: the call may still return
the other candidate, or fall through to the placeholder `(0, 0)`. -/
theorem calc_near6_exactness (n : Nat) :
    (isqrt ((isqrt (24 * n) + 1) * (isqrt (24 * n) + 1) - 24 * n) *
        isqrt ((isqrt (24 * n) + 1) * (isqrt (24 * n) + 1) - 24 * n) ≠
        (isqrt (24 * n) + 1) * (isqrt (24 * n) + 1) - 24 * n →
      calc_near6 n = none) ∧
    (∀ p q, calc_near6 n = some (p, q) → (p, q) ≠ (0, 0) →
      isPrime p = true ∧ isPrime q = true ∧ p * q = n) := by
  have hA : 24 * n ≤ (isqrt (24 * n) + 1) * (isqrt (24 * n) + 1) :=
    Nat.le_of_lt (isqrt_spec (24 * n)).2
  have hkey : calc_near6 n =
      if isqrt ((isqrt (24 * n) + 1) * (isqrt (24 * n) + 1) - 24 * n) *
          isqrt ((isqrt (24 * n) + 1) * (isqrt (24 * n) + 1) - 24 * n) =
          (isqrt (24 * n) + 1) * (isqrt (24 * n) + 1) - 24 * n then
        near6Candidates n (isqrt (24 * n) + 1)
          (isqrt ((isqrt (24 * n) + 1) * (isqrt (24 * n) + 1) - 24 * n))
      else none := rfl
  constructor
  · intro hne
    rw [hkey, if_neg hne]
  · intro p q hsome hne
    by_cases hex : isqrt ((isqrt (24 * n) + 1) * (isqrt (24 * n) + 1) - 24 * n) *
        isqrt ((isqrt (24 * n) + 1) * (isqrt (24 * n) + 1) - 24 * n) =
        (isqrt (24 * n) + 1) * (isqrt (24 * n) + 1) - 24 * n
    · rw [hkey, if_pos hex] at hsome
      exact near6Candidates_sound n _ _ hA hex p q hsome hne
    · rw [hkey, if_neg hex] at hsome
      cases hsome

/-- Claim C5 witness: the amended statement applied at the concrete inputs
`N = 13` (inexact square root, so the assert raises) and `N = 35` (the
returned non-placeholder pair `(5, 7)` multiplies back to `35`). -/
theorem calc_near6_exactness_witness :
    calc_near6 13 = none ∧ (isPrime 5 = true ∧ isPrime 7 = true ∧ 5 * 7 = 35) :=
  ⟨(calc_near6_exactness 13).1 (by decide),
   (calc_near6_exactness 35).2 5 7 (by decide) (by decide)⟩

/-- Claim C6 counterexample: the round-trip fails when the two primes are
equal.  With `p = q = 3`, `e = 3` (`gcd(3, φ) = gcd(3, 4) = 1`) and plaintext
`M = 3 < 9`, the decryptor returns `0`, not `3`. -/
theorem rsa_claim_cex :
    Nat.Prime 3 ∧ Nat.gcd 3 ((3 - 1) * (3 - 1)) = 1 ∧ 3 < 3 * 3 ∧
      rsa_decrypt_int 3 3 3 (3 ^ 3 % (3 * 3)) ≠ 3 :=
  ⟨by norm_num, by decide, by decide, by decide⟩

/-- Claim C6 (amended): for distinct primes `p ≠ q`, exponent `e` coprime to
`φ = (p-1)(q-1)` and plaintext `M < p*q`, decrypting the ciphertext
`M^e mod p*q` with the derived private exponent recovers `M` exactly. -/
theorem rsa_round_trip (p q e M : Nat) (hp : Nat.Prime p) (hq : Nat.Prime q)
    (hpq : p ≠ q) (he : Nat.gcd e ((p - 1) * (q - 1)) = 1) (hM : M < p * q) :
    rsa_decrypt_int p q e (M ^ e % (p * q)) = M := by
  have hp2 := hp.two_le
  have hq2 := hq.two_le
  have hphi2 : 2 ≤ (p - 1) * (q - 1) := by
    have h3 : 3 ≤ p ∨ 3 ≤ q := by omega
    rcases h3 with h3 | h3
    · have := Nat.mul_le_mul (show 2 ≤ p - 1 by omega) (show 1 ≤ q - 1 by omega)
      omega
    · have := Nat.mul_le_mul (show 1 ≤ p - 1 by omega) (show 2 ≤ q - 1 by omega)
      omega
  have hinv : e * invert e ((p - 1) * (q - 1)) % ((p - 1) * (q - 1)) = 1 :=
    invert_spec _ _ hphi2 he
  have hdm := Nat.div_add_mod (e * invert e ((p - 1) * (q - 1))) ((p - 1) * (q - 1))
  rw [hinv] at hdm
  have hdvd_p : (p - 1) ∣ (p - 1) * (q - 1) *
      (e * invert e ((p - 1) * (q - 1)) / ((p - 1) * (q - 1))) :=
    ⟨(q - 1) * (e * invert e ((p - 1) * (q - 1)) / ((p - 1) * (q - 1))), by ring⟩
  have hdvd_q : (q - 1) ∣ (p - 1) * (q - 1) *
      (e * invert e ((p - 1) * (q - 1)) / ((p - 1) * (q - 1))) :=
    ⟨(p - 1) * (e * invert e ((p - 1) * (q - 1)) / ((p - 1) * (q - 1))), by ring⟩
  have hmp : M ^ (e * invert e ((p - 1) * (q - 1))) ≡ M [MOD p] := by
    rw [← hdm]
    exact pow_one_add_mult M _ hp hdvd_p
  have hmq : M ^ (e * invert e ((p - 1) * (q - 1))) ≡ M [MOD q] := by
    rw [← hdm]
    exact pow_one_add_mult M _ hq hdvd_q
  have hco : Nat.Coprime p q := (Nat.coprime_primes hp hq).mpr hpq
  have hn : M ^ (e * invert e ((p - 1) * (q - 1))) ≡ M [MOD p * q] :=
    (Nat.modEq_and_modEq_iff_modEq_mul hco).mp ⟨hmp, hmq⟩
  have hpowm : (M ^ e % (p * q)) ^ invert e ((p - 1) * (q - 1)) ≡
      M ^ (e * invert e ((p - 1) * (q - 1))) [MOD p * q] := by
    have h1 : M ^ e % (p * q) ≡ M ^ e [MOD p * q] := Nat.mod_modEq _ _
    have h2 := h1.pow (invert e ((p - 1) * (q - 1)))
    rw [← pow_mul] at h2
    exact h2
  have hfinal := hpowm.trans hn
  show (M ^ e % (p * q)) ^ invert e ((p - 1) * (q - 1)) % (p * q) = M
  unfold Nat.ModEq at hfinal
  rw [hfinal]
  exact Nat.mod_eq_of_lt hM

/-- Claim C6 witness: the amended round-trip at `p = 3`, `q = 5`, `e = 3`,
`M = 2`. -/
theorem rsa_round_trip_witness : rsa_decrypt_int 3 5 3 (2 ^ 3 % (3 * 5)) = 2 :=
  rsa_round_trip 3 5 3 2 (by norm_num) (by norm_num) (by decide) (by decide)
    (by decide)

/-- Claim C8: solving `a x² + b x + c = 0` with `b = -a (r1 + r2)` and
`c = a r1 r2` recovers the roots `{r1, r2}` (as an unordered pair) for every
nonzero integer `a`. -/
theorem solve_quadratic_round_trip (a r1 r2 : Int) (ha : a ≠ 0) :
    solve_quadratic a (-(a * (r1 + r2))) (a * r1 * r2) = (r1, r2) ∨
    solve_quadratic a (-(a * (r1 + r2))) (a * r1 * r2) = (r2, r1) := by
  have h2a : (2 * a) ≠ 0 := mul_ne_zero (by norm_num) ha
  have hΔ : -(a * (r1 + r2)) * -(a * (r1 + r2)) - 4 * a * (a * r1 * r2) =
      a * (r1 - r2) * (a * (r1 - r2)) := by ring
  have htn : (a * (r1 - r2) * (a * (r1 - r2))).toNat =
      (a * (r1 - r2)).natAbs * (a * (r1 - r2)).natAbs := by
    have hx : ((a * (r1 - r2) * (a * (r1 - r2))).toNat : Int) =
        (((a * (r1 - r2)).natAbs * (a * (r1 - r2)).natAbs : Nat) : Int) := by
      rw [Int.toNat_of_nonneg (mul_self_nonneg _), Int.natAbs_mul_self]
    exact_mod_cast hx
  unfold solve_quadratic
  rw [hΔ, htn, isqrt_sq]
  rcases Int.natAbs_eq (a * (r1 - r2)) with h | h
  · right
    rw [← h, Prod.mk.injEq]
    constructor
    · rw [show -(-(a * (r1 + r2))) - a * (r1 - r2) = 2 * a * r2 by ring]
      exact Int.mul_ediv_cancel_left _ h2a
    · rw [show -(-(a * (r1 + r2))) + a * (r1 - r2) = 2 * a * r1 by ring]
      exact Int.mul_ediv_cancel_left _ h2a
  · left
    have h' : ((a * (r1 - r2)).natAbs : Int) = -(a * (r1 - r2)) := by omega
    rw [h', Prod.mk.injEq]
    constructor
    · rw [show -(-(a * (r1 + r2))) - -(a * (r1 - r2)) = 2 * a * r1 by ring]
      exact Int.mul_ediv_cancel_left _ h2a
    · rw [show -(-(a * (r1 + r2))) + -(a * (r1 - r2)) = 2 * a * r2 by ring]
      exact Int.mul_ediv_cancel_left _ h2a

/-- Claim C8 witness: the round-trip at `a = 1`, `r1 = 2`, `r2 = 3`. -/
theorem solve_quadratic_round_trip_witness :
    solve_quadratic 1 (-(1 * ((2 : Int) + 3))) (1 * 2 * 3) = ((2 : Int), (3 : Int)) ∨
    solve_quadratic 1 (-(1 * ((2 : Int) + 3))) (1 * 2 * 3) = ((3 : Int), (2 : Int)) :=
  solve_quadratic_round_trip 1 2 3 (by decide)
